import Mathlib

/-!
Verification of the prefix-notation arithmetic-expression lexer and parser
in `src/3_ParsingArithExp/Lexer.py`.

Strings are modelled as `List Char`, the stateful `Lexer` object as a
structure that every operation returns updated, and Python exceptions as
`Except Err`.  The expression-tree collaborator (`Exp.py`) is imported by
`Lexer.py` but is not among the given sources; it is modelled from the
spec where noted.
-/

/-- The `TokenType` enumeration (Lexer.py lines 7-19). -/
inductive TokenType where
  | EOF
  | NLN
  | WSP
  | NUM
  | LPR
  | RPR
  | ADD
  | SUB
  | MUL
  | DIV
deriving DecidableEq, Repr

/-- The `Token` class (Lexer.py lines 22-52): a text and a kind. -/
structure Token where
  text : List Char
  kind : TokenType
deriving DecidableEq, Repr

/-- `Token.operators` (Lexer.py line 37): the token kinds that are operators. -/
def Token.operators : List TokenType := [.ADD, .SUB, .MUL, .DIV]

/-- The `Lexer` state (Lexer.py lines 74-86): the immutable input string and
the current position.  Python's `self.length` is always `len(input_string)`
(set once in `__init__` and never written again), so it is kept as the
derived function `Lexer.length` rather than a third field. -/
structure Lexer where
  input_string : List Char
  position : Nat
deriving DecidableEq, Repr

/-- `self.length` of the Python `Lexer` (line 86). -/
def Lexer.length (lx : Lexer) : Nat := lx.input_string.length

/-- The two `ValueError`s the module raises: `Unexpected character` in
`Lexer.getToken` (line 231) and `Unexpected token type` in `compute_prefix`
(line 293). -/
inductive Err where
  | UnexpectedCharacter (c : Char)
  | UnexpectedToken (k : TokenType)
deriving DecidableEq, Repr

/-- Modelled from the spec: the expression-tree collaborator (`Exp.py`,
imported by `Lexer.py` on line 4 but not among the given sources).  Spec
section 3: a numeric leaf holding an integer value and binary nodes for the
four operators, each owning two child expressions. -/
inductive Expression where
  | Num (value : Int)
  | Add (left right : Expression)
  | Sub (left right : Expression)
  | Mul (left right : Expression)
  | Div (left right : Expression)
deriving DecidableEq, Repr

/-- Modelled from the spec: the `eval` capability of the expression tree
(spec sections 2 and 3).  A leaf evaluates to its stored value; a binary
node applies its operator to its children (division is modelled as integer
division; only the leaf case is relevant to the claims). -/
def Expression.eval : Expression → Int
  | .Num v => v
  | .Add a b => a.eval + b.eval
  | .Sub a b => a.eval - b.eval
  | .Mul a b => a.eval * b.eval
  | .Div a b => a.eval / b.eval

/-- The digit-consuming loop of `Lexer.getToken` (lines 209-214): while the
position is in range and the character there is a digit, append it to
`number_text` and advance the position.  Returns the accumulated text and
the final position. -/
def scanDigits (s : List Char) (pos : Nat) (number_text : List Char) :
    List Char × Nat :=
  if h : pos < s.length then
    if (s.get ⟨pos, h⟩).isDigit then
      scanDigits s (pos + 1) (number_text ++ [s.get ⟨pos, h⟩])
    else
      (number_text, pos)
  else
    (number_text, pos)
termination_by s.length - pos

/-- The `non_numeric_tokens` dictionary of `Lexer.getToken` (lines 219-228). -/
def non_numeric_tokens (c : Char) : Option TokenType :=
  if c = '+' then some .ADD
  else if c = '-' then some .SUB
  else if c = '*' then some .MUL
  else if c = '/' then some .DIV
  else if c = '(' then some .LPR
  else if c = ')' then some .RPR
  else if c = ' ' then some .WSP
  else if c = '\n' then some .NLN
  else none

/-- `Lexer.getToken` (lines 158-233).  At or past the end of the input it
returns an `EOF` token with empty text and leaves the state unchanged.
Otherwise it reads the current character and advances the position by one;
a digit starts a maximal-munch number scan, any other character is looked
up in `non_numeric_tokens`, and an unknown character raises
`ValueError` (modelled as `Err.UnexpectedCharacter`) — note the position
was already advanced (line 204) before the raise (line 231), so the error
case also returns the advanced state.  Python's `str.isdigit` is modelled
as `Char.isDigit` (the spec's interface limits input to ASCII digits). -/
def Lexer.getToken (lx : Lexer) : Except Err Token × Lexer :=
  if h : lx.position < lx.length then
    let current_char := lx.input_string.get ⟨lx.position, h⟩
    if current_char.isDigit then
      let r := scanDigits lx.input_string (lx.position + 1) [current_char]
      (.ok ⟨r.1, .NUM⟩, ⟨lx.input_string, r.2⟩)
    else
      match non_numeric_tokens current_char with
      | some kind =>
          (.ok ⟨[current_char], kind⟩, ⟨lx.input_string, lx.position + 1⟩)
      | none =>
          (.error (.UnexpectedCharacter current_char),
            ⟨lx.input_string, lx.position + 1⟩)
  else
    (.ok ⟨[], .EOF⟩, lx)

/-- `scanDigits` consumes exactly the maximal run of digits from `pos` on. -/
theorem scanDigits_eq (s : List Char) (pos : Nat) (acc : List Char) :
    scanDigits s pos acc =
      (acc ++ (s.drop pos).takeWhile Char.isDigit,
       pos + ((s.drop pos).takeWhile Char.isDigit).length) := by
  induction pos, acc using scanDigits.induct s with
  | case1 pos acc h hd ih =>
      rw [scanDigits]
      simp only [dif_pos h, if_pos hd]
      rw [ih]
      have hdrop : s.drop pos = s.get ⟨pos, h⟩ :: s.drop (pos + 1) := by
        rw [List.get_eq_getElem, List.getElem_cons_drop]
      rw [hdrop, List.takeWhile_cons, hd]
      simp [List.append_assoc]
      omega
  | case2 pos acc h hd =>
      rw [scanDigits]
      simp only [dif_pos h, if_neg hd]
      have hdrop : s.drop pos = s.get ⟨pos, h⟩ :: s.drop (pos + 1) := by
        rw [List.get_eq_getElem, List.getElem_cons_drop]
      rw [hdrop, List.takeWhile_cons]
      rw [Bool.not_eq_true] at hd
      simp only [List.get_eq_getElem] at hd
      simp [hd]
  | case3 pos acc h =>
      rw [scanDigits]
      simp only [dif_neg h]
      have hdrop : s.drop pos = [] := by
        rw [List.drop_eq_nil_iff]
        omega
      simp [hdrop]

/-- Whitespace as the lexer classifies it: the two characters mapped to
`WSP` and `NLN` by `non_numeric_tokens`. -/
def isWS (c : Char) : Bool := c = ' ' || c = '\n'

/-- Length bound for `takeWhile`. -/
theorem takeWhile_length_le (p : Char → Bool) (l : List Char) :
    (l.takeWhile p).length ≤ l.length := by
  induction l with
  | nil => simp
  | cons a t ih =>
      rw [List.takeWhile_cons]
      split
      · simp only [List.length_cons]
        omega
      · simp

/-- `takeWhile` swallows a prefix on which the predicate holds and stops at
a first element where it fails. -/
theorem takeWhile_append_all (p : Char → Bool) (a b : List Char)
    (ha : ∀ c ∈ a, p c = true)
    (hb : ∀ c, b.head? = some c → p c = false) :
    (a ++ b).takeWhile p = a := by
  induction a with
  | nil =>
      cases b with
      | nil => simp
      | cons x xs =>
          simp only [List.nil_append, List.takeWhile_cons]
          rw [hb x rfl]
          simp
  | cons x xs ih =>
      simp only [List.cons_append, List.takeWhile_cons]
      rw [ha x (by simp)]
      simp only [if_true]
      rw [ih (fun c hc => ha c (by simp [hc]))]

/-- At or past the end of the input, `getToken` returns the `EOF` token and
leaves the state unchanged (Lexer.py lines 200-201). -/
theorem getToken_eof (lx : Lexer) (h : lx.input_string.length ≤ lx.position) :
    lx.getToken = (.ok ⟨[], .EOF⟩, lx) := by
  rw [Lexer.getToken]
  have hnot : ¬ lx.position < lx.length := by
    simp only [Lexer.length]
    omega
  simp [hnot]

/-- One `getToken` step, characterized by the characters remaining at the
current position. -/
theorem getToken_cons (s : List Char) (p : Nat) (c : Char) (t : List Char)
    (h : s.drop p = c :: t) :
    Lexer.getToken ⟨s, p⟩ =
      if c.isDigit then
        (.ok ⟨c :: t.takeWhile Char.isDigit, .NUM⟩,
         ⟨s, p + 1 + (t.takeWhile Char.isDigit).length⟩)
      else
        match non_numeric_tokens c with
        | some kind => (.ok ⟨[c], kind⟩, ⟨s, p + 1⟩)
        | none => (.error (.UnexpectedCharacter c), ⟨s, p + 1⟩) := by
  have hp : p < s.length := by
    by_contra hc
    rw [List.drop_eq_nil_iff.mpr (by omega)] at h
    exact List.noConfusion h
  have hsplit : s[p] :: s.drop (p + 1) = c :: t := by
    rw [List.getElem_cons_drop s p hp]
    exact h
  have hc : s.get ⟨p, hp⟩ = c := by
    rw [List.get_eq_getElem]
    injection hsplit
  have ht : s.drop (p + 1) = t := by
    injection hsplit
  rw [Lexer.getToken]
  have hlt : (⟨s, p⟩ : Lexer).position < (⟨s, p⟩ : Lexer).length := hp
  rw [dif_pos hlt]
  simp only [hc, scanDigits_eq, ht, List.singleton_append]

/-- `getToken` never changes the input string. -/
theorem getToken_input (lx : Lexer) :
    (lx.getToken).2.input_string = lx.input_string := by
  obtain ⟨s, p⟩ := lx
  rcases hd : s.drop p with _ | ⟨c, t⟩
  · rw [getToken_eof _ (List.drop_eq_nil_iff.mp hd)]
  · rw [getToken_cons s p c t hd]
    split
    · rfl
    · split <;> rfl

/-- `getToken` never moves the position backwards. -/
theorem getToken_pos_le (lx : Lexer) :
    lx.position ≤ (lx.getToken).2.position := by
  obtain ⟨s, p⟩ := lx
  rcases hd : s.drop p with _ | ⟨c, t⟩
  · rw [getToken_eof _ (List.drop_eq_nil_iff.mp hd)]
  · rw [getToken_cons s p c t hd]
    split
    · simp; omega
    · split <;> simp

/-- A `getToken` call that returns a token other than `EOF` was made
strictly inside the input and strictly advances the position. -/
theorem getToken_ne_eof (lx : Lexer) (tok : Token)
    (h : (lx.getToken).1 = .ok tok) (hk : tok.kind ≠ .EOF) :
    lx.position < (lx.getToken).2.position ∧
      lx.position < lx.input_string.length := by
  obtain ⟨s, p⟩ := lx
  rcases hd : s.drop p with _ | ⟨c, t⟩
  · exfalso
    have hg := getToken_eof ⟨s, p⟩ (List.drop_eq_nil_iff.mp hd)
    rw [hg] at h
    simp only at h
    injection h with h2
    rw [← h2] at hk
    exact hk rfl
  · have hp : p < s.length := by
      by_contra hc
      rw [List.drop_eq_nil_iff.mpr (by omega)] at hd
      exact List.noConfusion hd
    rw [getToken_cons s p c t hd]
    constructor
    · split
      · simp
        omega
      · split <;> simp
    · exact hp

/-- `getToken` keeps the position within the input (Lexer.py only ever
advances past characters that exist). -/
theorem getToken_pos_le_length (lx : Lexer)
    (h : lx.position ≤ lx.input_string.length) :
    (lx.getToken).2.position ≤ lx.input_string.length := by
  obtain ⟨s, p⟩ := lx
  rcases hd : s.drop p with _ | ⟨c, t⟩
  · rw [getToken_eof _ (List.drop_eq_nil_iff.mp hd)]
    exact h
  · have hp : p < s.length := by
      by_contra hc
      rw [List.drop_eq_nil_iff.mpr (by omega)] at hd
      exact List.noConfusion hd
    have hlen : t.length = s.length - (p + 1) := by
      have := congrArg List.length hd
      simp at this
      omega
    have htw := takeWhile_length_le Char.isDigit t
    rw [getToken_cons s p c t hd]
    split
    · simp
      omega
    · split <;> simp <;> omega

/-- `Lexer.next_valid_token` (lines 88-121): fetch a token and, if it is a
white space or a new line, recur to fetch the next one. -/
def Lexer.next_valid_token (lx : Lexer) : Except Err Token × Lexer :=
  match hgt : lx.getToken with
  | (.error e, lx') => (.error e, lx')
  | (.ok token, lx') =>
      if h : token.kind = .WSP ∨ token.kind = .NLN then
        lx'.next_valid_token
      else
        (.ok token, lx')
termination_by lx.input_string.length - lx.position
decreasing_by
  have h1 := getToken_input lx
  have h2 := getToken_ne_eof lx token (by rw [hgt])
    (by rcases h with hk | hk <;> simp [hk])
  rw [hgt] at h1 h2
  simp only at h1 h2
  rw [h1]
  omega

/-- Unfolding `next_valid_token` when `getToken` raises. -/
theorem nvt_error (lx : Lexer) (e : Err) (lx' : Lexer)
    (h : lx.getToken = (.error e, lx')) :
    lx.next_valid_token = (.error e, lx') := by
  rw [Lexer.next_valid_token]
  split <;> simp_all

/-- Unfolding `next_valid_token` on a white-space or new-line token: the
token is discarded and the scan continues (Lexer.py lines 118-119). -/
theorem nvt_skip (lx : Lexer) (tok : Token) (lx' : Lexer)
    (h : lx.getToken = (.ok tok, lx'))
    (hk : tok.kind = .WSP ∨ tok.kind = .NLN) :
    lx.next_valid_token = lx'.next_valid_token := by
  rw [Lexer.next_valid_token]
  split <;> simp_all

/-- Unfolding `next_valid_token` on any other token: it is returned as is. -/
theorem nvt_keep (lx : Lexer) (tok : Token) (lx' : Lexer)
    (h : lx.getToken = (.ok tok, lx'))
    (hk : ¬(tok.kind = .WSP ∨ tok.kind = .NLN)) :
    lx.next_valid_token = (.ok tok, lx') := by
  rw [Lexer.next_valid_token]
  split <;> simp_all

/-- The only characters the dictionary classifies as `WSP` or `NLN` are the
space and the newline. -/
theorem non_numeric_ws (c : Char) (k : TokenType)
    (h : non_numeric_tokens c = some k) (hk : k = .WSP ∨ k = .NLN) :
    isWS c = true := by
  unfold non_numeric_tokens at h
  split_ifs at h <;> (injection h with h0; subst h0; simp_all [isWS])

/-- The two whitespace characters, by cases. -/
theorem isWS_cases (c : Char) (h : isWS c = true) : c = ' ' ∨ c = '\n' := by
  simpa [isWS] using h

/-- A digit is not whitespace in the lexer's classification. -/
theorem isDigit_not_isWS (c : Char) (h : c.isDigit = true) :
    isWS c = false := by
  rcases Bool.eq_false_or_eq_true (isWS c) with hw | hw
  · rcases isWS_cases c hw with rfl | rfl <;> simp_all
  · exact hw

/-- A whitespace character is not a digit. -/
theorem isWS_not_digit (c : Char) (h : isWS c = true) : c.isDigit = false := by
  rcases isWS_cases c h with rfl | rfl <;> decide

/-- `next_valid_token` skips exactly a leading run of whitespace characters
and then behaves as one `getToken` call: the spec's `next_significant`. -/
theorem nvt_ws (s : List Char) : ∀ (ws : List Char) (p : Nat) (rest : List Char),
    s.drop p = ws ++ rest →
    (∀ c ∈ ws, isWS c = true) →
    (∀ c, rest.head? = some c → isWS c = false) →
    Lexer.next_valid_token ⟨s, p⟩ = Lexer.getToken ⟨s, p + ws.length⟩ := by
  intro ws
  induction ws with
  | nil =>
      intro p rest hdrop hws hrest
      simp only [List.nil_append] at hdrop
      simp only [List.length_nil, Nat.add_zero]
      cases rest with
      | nil =>
          have hg := getToken_eof ⟨s, p⟩ (List.drop_eq_nil_iff.mp hdrop)
          rw [nvt_keep _ _ _ hg (by simp), hg]
      | cons c t =>
          have hsig : isWS c = false := hrest c rfl
          have hg := getToken_cons s p c t hdrop
          by_cases hd : c.isDigit = true
          · rw [if_pos hd] at hg
            rw [nvt_keep _ _ _ hg (by simp), hg]
          · rw [if_neg hd] at hg
            rcases hnn : non_numeric_tokens c with _ | k
            · simp only [hnn] at hg
              rw [nvt_error _ _ _ hg, hg]
            · simp only [hnn] at hg
              have hkind : ¬((Token.mk [c] k).kind = .WSP ∨
                  (Token.mk [c] k).kind = .NLN) := by
                intro hk
                have := non_numeric_ws c k hnn (by simpa using hk)
                rw [hsig] at this
                cases this
              rw [nvt_keep _ _ _ hg hkind, hg]
  | cons w ws ih =>
      intro p rest hdrop hws hrest
      have hw : isWS w = true := hws w (by simp)
      have hdrop' : s.drop p = w :: (ws ++ rest) := by simpa using hdrop
      have hdig : w.isDigit = false := isWS_not_digit w hw
      have hg := getToken_cons s p w (ws ++ rest) hdrop'
      rw [if_neg (by simp [hdig])] at hg
      have hdt : s.drop (p + 1) = ws ++ rest := by
        rw [← List.tail_drop, hdrop']
        rfl
      have harith : p + 1 + ws.length = p + (w :: ws).length := by
        simp only [List.length_cons]
        omega
      rcases isWS_cases w hw with rfl | rfl
      · have hnn : non_numeric_tokens ' ' = some .WSP := rfl
        simp only [hnn] at hg
        rw [nvt_skip _ _ _ hg (by simp)]
        rw [ih (p + 1) rest hdt (fun c hc => hws c (by simp [hc])) hrest]
        rw [harith]
      · have hnn : non_numeric_tokens '\n' = some .NLN := rfl
        simp only [hnn] at hg
        rw [nvt_skip _ _ _ hg (by simp)]
        rw [ih (p + 1) rest hdt (fun c hc => hws c (by simp [hc])) hrest]
        rw [harith]

/-- Python `int(token.text)` on the digit-only texts the lexer produces for
`NUM` tokens: the literal decimal value of the digit string (so leading
zeros contribute nothing — no octal reading). -/
def digitsToNat (ds : List Char) : Nat :=
  ds.foldl (fun a c => 10 * a + (c.toNat - 48)) 0

/-- The `operations_map` dictionary of `compute_prefix` (lines 282-287).
The guard `token.kind in Token.operators` (line 277) and this lookup have
exactly the same domain (`operations_map_isSome_iff`), so the embedding
folds the membership test and the lookup into one `match`. -/
def operations_map (k : TokenType) :
    Option (Expression → Expression → Expression) :=
  match k with
  | .ADD => some .Add
  | .SUB => some .Sub
  | .MUL => some .Mul
  | .DIV => some .Div
  | _ => none

/-- The lookup succeeds exactly on the members of `Token.operators`. -/
theorem operations_map_isSome_iff (k : TokenType) :
    (operations_map k).isSome = true ↔ k ∈ Token.operators := by
  cases k <;> simp [operations_map, Token.operators]

/-- An operator kind is neither `NUM` nor `EOF`. -/
theorem operations_map_ne (k : TokenType)
    (f : Expression → Expression → Expression)
    (h : operations_map k = some f) : k ≠ .NUM ∧ k ≠ .EOF := by
  cases k <;> simp_all [operations_map]

/-- `compute_prefix` (Lexer.py lines 236-293), with explicit recursion fuel
(`none` means the fuel ran out; `compute_prefixF_isSome` below shows any
fuel exceeding the number of characters left always suffices, so the fuel
is an artifact of the embedding and not of the algorithm).  Fetch one
significant token; a `NUM` token becomes a leaf holding `int(text)`
(line 275); an operator kind parses two sub-expressions in left-to-right
order and wraps them in the mapped binary node (lines 279-290); any other
kind raises `ValueError` (line 293, modelled as `Err.UnexpectedToken`).
Errors from the lexer or from the recursive calls propagate outward like
Python exceptions, carrying the lexer state they were raised in. -/
def compute_prefixF : Nat → Lexer → Option (Except Err Expression × Lexer)
  | 0, _ => none
  | fuel + 1, lexer =>
    match lexer.next_valid_token with
    | (.error e, lx') => some (.error e, lx')
    | (.ok token, lx') =>
      if token.kind = .NUM then
        some (.ok (.Num (digitsToNat token.text)), lx')
      else
        match operations_map token.kind with
        | some operation =>
          match compute_prefixF fuel lx' with
          | none => none
          | some (.error e, lx1) => some (.error e, lx1)
          | some (.ok a, lx1) =>
            match compute_prefixF fuel lx1 with
            | none => none
            | some (.error e, lx2) => some (.error e, lx2)
            | some (.ok b, lx2) => some (.ok (operation a b), lx2)
        | none => some (.error (.UnexpectedToken token.kind), lx')

/-- `compute_prefix lexer`: the fuelled parser run with enough fuel for the
whole input (one plus the input length; `compute_prefixF_isSome` proves the
default of `getD` is never taken). -/
def compute_prefix (lexer : Lexer) : Except Err Expression × Lexer :=
  (compute_prefixF (lexer.input_string.length + 1) lexer).getD
    (.error (.UnexpectedToken .EOF), lexer)

/-- Unfolding equation for the wrapper. -/
theorem computePrefix_def (lexer : Lexer) :
    compute_prefix lexer =
      (compute_prefixF (lexer.input_string.length + 1) lexer).getD
        (.error (.UnexpectedToken .EOF), lexer) := rfl

/-- `next_valid_token` never changes the input string. -/
theorem nvt_input (lx : Lexer) :
    (lx.next_valid_token).2.input_string = lx.input_string := by
  induction lx using Lexer.next_valid_token.induct with
  | case1 x e lx' h =>
      rw [nvt_error _ _ _ h]
      have hi := getToken_input x
      rw [h] at hi
      exact hi
  | case2 x token lx' h hk ih =>
      rw [nvt_skip _ _ _ h hk]
      rw [ih]
      have hi := getToken_input x
      rw [h] at hi
      exact hi
  | case3 x token lx' h hk =>
      rw [nvt_keep _ _ _ h hk]
      have hi := getToken_input x
      rw [h] at hi
      exact hi

/-- `next_valid_token` never moves the position backwards. -/
theorem nvt_pos_le (lx : Lexer) :
    lx.position ≤ (lx.next_valid_token).2.position := by
  induction lx using Lexer.next_valid_token.induct with
  | case1 x e lx' h =>
      rw [nvt_error _ _ _ h]
      have hp := getToken_pos_le x
      rw [h] at hp
      exact hp
  | case2 x token lx' h hk ih =>
      rw [nvt_skip _ _ _ h hk]
      have hp := getToken_pos_le x
      rw [h] at hp
      simp only at hp ih ⊢
      omega
  | case3 x token lx' h hk =>
      rw [nvt_keep _ _ _ h hk]
      have hp := getToken_pos_le x
      rw [h] at hp
      exact hp

/-- A significant token other than `EOF` was fetched strictly inside the
input and fetching it strictly advanced the position. -/
theorem nvt_ne_eof (lx : Lexer) (tok : Token)
    (h : (lx.next_valid_token).1 = .ok tok) (hk : tok.kind ≠ .EOF) :
    lx.position < (lx.next_valid_token).2.position ∧
      lx.position < lx.input_string.length := by
  induction lx using Lexer.next_valid_token.induct with
  | case1 x e lx' hg =>
      rw [nvt_error _ _ _ hg] at h
      cases h
  | case2 x token lx' hg hkk ih =>
      rw [nvt_skip _ _ _ hg hkk] at h ⊢
      have hadv := getToken_ne_eof x token (by rw [hg])
        (by rcases hkk with hx | hx <;> simp [hx])
      rw [hg] at hadv
      simp only at hadv
      have hle := nvt_pos_le lx'
      have hi := getToken_input x
      rw [hg] at hi
      simp only at hi
      constructor
      · omega
      · exact hadv.2
  | case3 x token lx' hg hkk =>
      rw [nvt_keep _ _ _ hg hkk] at h ⊢
      simp only at h
      injection h with h2
      subst h2
      have hadv := getToken_ne_eof x token (by rw [hg]) hk
      rw [hg] at hadv
      exact hadv

/-- A successful (fuel-sufficient) run of the fuelled parser keeps the
input string and never moves the position backwards. -/
theorem parseF_mono : ∀ (fuel : Nat) (lx : Lexer) (r : Except Err Expression)
    (lx' : Lexer), compute_prefixF fuel lx = some (r, lx') →
    lx'.input_string = lx.input_string ∧ lx.position ≤ lx'.position := by
  intro fuel
  induction fuel with
  | zero =>
      intro lx r lx' h
      cases h
  | succ f ih =>
      intro lx r lx' h
      rcases hnvt : lx.next_valid_token with ⟨r0, lx0⟩
      have hm0 : lx0.input_string = lx.input_string ∧
          lx.position ≤ lx0.position := by
        have h1 := nvt_input lx
        have h2 := nvt_pos_le lx
        rw [hnvt] at h1 h2
        exact ⟨h1, h2⟩
      cases r0 with
      | error e =>
          simp only [compute_prefixF, hnvt] at h
          simp only [Option.some.injEq, Prod.mk.injEq] at h
          rw [← h.2]
          exact hm0
      | ok token =>
          simp only [compute_prefixF, hnvt] at h
          by_cases hnum : token.kind = .NUM
          · rw [if_pos hnum] at h
            simp only [Option.some.injEq, Prod.mk.injEq] at h
            rw [← h.2]
            exact hm0
          · rw [if_neg hnum] at h
            rcases hop : operations_map token.kind with _ | operation
            · simp only [hop, Option.some.injEq, Prod.mk.injEq] at h
              rw [← h.2]
              exact hm0
            · simp only [hop] at h
              rcases hr1 : compute_prefixF f lx0 with _ | ⟨e1 | a, lx1⟩
              · simp only [hr1] at h
                cases h
              · have hm1 := ih lx0 (.error e1) lx1 hr1
                simp only [hr1, Option.some.injEq, Prod.mk.injEq] at h
                rw [← h.2]
                constructor
                · rw [hm1.1, hm0.1]
                · omega
              · have hm1 := ih lx0 (.ok a) lx1 hr1
                simp only [hr1] at h
                rcases hr2 : compute_prefixF f lx1 with _ | ⟨e2 | b, lx2⟩
                · simp only [hr2] at h
                  cases h
                · have hm2 := ih lx1 (.error e2) lx2 hr2
                  simp only [hr2, Option.some.injEq, Prod.mk.injEq] at h
                  rw [← h.2]
                  constructor
                  · rw [hm2.1, hm1.1, hm0.1]
                  · omega
                · have hm2 := ih lx1 (.ok b) lx2 hr2
                  simp only [hr2, Option.some.injEq, Prod.mk.injEq] at h
                  rw [← h.2]
                  constructor
                  · rw [hm2.1, hm1.1, hm0.1]
                  · omega

/-- Any fuel exceeding the number of characters left suffices: the fuelled
parser never returns `none` then.  This is the termination argument of the
Python `compute_prefix`: every significant non-`EOF` token strictly
advances the position, which is bounded by the input length, and `EOF`
reaches the error branch instead of recursing. -/
theorem compute_prefixF_isSome :
    ∀ (fuel : Nat) (lx : Lexer),
    lx.input_string.length - lx.position < fuel →
    ∃ r, compute_prefixF fuel lx = some r := by
  intro fuel
  induction fuel with
  | zero =>
      intro lx h
      omega
  | succ f ih =>
      intro lx h
      rcases hnvt : lx.next_valid_token with ⟨r0, lx0⟩
      have hi : lx0.input_string = lx.input_string := by
        have h1 := nvt_input lx
        rw [hnvt] at h1
        exact h1
      cases r0 with
      | error e =>
          exact ⟨(.error e, lx0), by simp only [compute_prefixF, hnvt]⟩
      | ok token =>
          by_cases hnum : token.kind = .NUM
          · exact ⟨(.ok (.Num (digitsToNat token.text)), lx0),
              by simp only [compute_prefixF, hnvt, if_pos hnum]⟩
          · rcases hop : operations_map token.kind with _ | operation
            · exact ⟨(.error (.UnexpectedToken token.kind), lx0),
                by simp only [compute_prefixF, hnvt, if_neg hnum, hop]⟩
            · have hne := (operations_map_ne token.kind operation hop).2
              have hadv := nvt_ne_eof lx token (by rw [hnvt]) hne
              rw [hnvt] at hadv
              simp only at hadv
              have hf0 : lx0.input_string.length - lx0.position < f := by
                rw [hi]
                omega
              obtain ⟨⟨r1, lx1⟩, hr1⟩ := ih lx0 hf0
              cases r1 with
              | error e =>
                  exact ⟨(.error e, lx1), by
                    simp only [compute_prefixF, hnvt, if_neg hnum, hop, hr1]⟩
              | ok a =>
                  have hm1 := parseF_mono f lx0 (.ok a) lx1 hr1
                  have hf1 : lx1.input_string.length - lx1.position < f := by
                    rw [hm1.1, hi]
                    omega
                  obtain ⟨⟨r2, lx2⟩, hr2⟩ := ih lx1 hf1
                  cases r2 with
                  | error e =>
                      exact ⟨(.error e, lx2), by
                        simp only [compute_prefixF, hnvt, if_neg hnum, hop,
                          hr1, hr2]⟩
                  | ok b =>
                      exact ⟨(.ok (operation a b), lx2), by
                        simp only [compute_prefixF, hnvt, if_neg hnum, hop,
                          hr1, hr2]⟩

/-- The canonical decimal text of a natural number (most significant digit
first); used to build concrete parser inputs inside theorem statements. -/
def natRender (n : Nat) : List Char :=
  if n < 10 then [Nat.digitChar n]
  else natRender (n / 10) ++ [Nat.digitChar (n % 10)]
termination_by n
decreasing_by
  exact Nat.div_lt_self (by omega) (by omega)

/-- Digit characters are classified as digits. -/
theorem digitChar_isDigit : ∀ d, d < 10 → (Nat.digitChar d).isDigit = true := by
  decide

/-- The numeric value of a digit character. -/
theorem digitChar_toNat : ∀ d, d < 10 → (Nat.digitChar d).toNat - 48 = d := by
  decide

/-- A rendered number is never the empty string. -/
theorem natRender_ne_nil (n : Nat) : natRender n ≠ [] := by
  rw [natRender]
  split <;> simp

/-- Every character of a rendered number is a digit. -/
theorem natRender_digits :
    ∀ (n : Nat) (c : Char), c ∈ natRender n → c.isDigit = true := by
  intro n
  induction n using Nat.strong_induction_on with
  | _ n ih =>
      intro c hc
      by_cases h : n < 10
      · rw [natRender, if_pos h] at hc
        simp at hc
        subst hc
        exact digitChar_isDigit n h
      · rw [natRender, if_neg h] at hc
        simp at hc
        rcases hc with hc | hc
        · exact ih (n / 10) (Nat.div_lt_self (by omega) (by omega)) c hc
        · subst hc
          exact digitChar_isDigit _ (Nat.mod_lt _ (by omega))

/-- Appending one digit multiplies the accumulated value by ten. -/
theorem digitsToNat_append (xs : List Char) (c : Char) :
    digitsToNat (xs ++ [c]) = 10 * digitsToNat xs + (c.toNat - 48) := by
  unfold digitsToNat
  rw [List.foldl_append]
  rfl

/-- Parsing back the canonical decimal text gives the number: the
`int(text)` step inverts the rendering. -/
theorem digitsToNat_natRender (n : Nat) : digitsToNat (natRender n) = n := by
  induction n using Nat.strong_induction_on with
  | _ n ih =>
      by_cases h : n < 10
      · rw [natRender, if_pos h]
        have hv := digitChar_toNat n h
        unfold digitsToNat
        simp
        omega
      · rw [natRender, if_neg h, digitsToNat_append,
          ih (n / 10) (Nat.div_lt_self (by omega) (by omega)),
          digitChar_toNat _ (Nat.mod_lt _ (by omega))]
        omega

/-- A leading zero contributes nothing to the decimal value. -/
theorem digitsToNat_cons_zero (ds : List Char) :
    digitsToNat ('0' :: ds) = digitsToNat ds := rfl

/-- The source character of each operator token kind, for building inputs. -/
def opCharOf (k : TokenType) : Option Char :=
  match k with
  | .ADD => some '+'
  | .SUB => some '-'
  | .MUL => some '*'
  | .DIV => some '/'
  | _ => none

/-- Operator characters lex back to their kind and are neither digits nor
whitespace. -/
theorem opCharOf_props (k : TokenType) (c : Char) (h : opCharOf k = some c) :
    non_numeric_tokens c = some k ∧ c.isDigit = false ∧ isWS c = false := by
  cases k <;> simp only [opCharOf] at h <;>
    first
      | (injection h with h0; subst h0; decide)
      | cases h

/-- Dropping past a known prefix of the remaining input. -/
theorem drop_of_drop_append (s : List Char) (p : Nat) (u v : List Char)
    (h : s.drop p = u ++ v) : s.drop (p + u.length) = v := by
  rw [← List.drop_drop, h, List.drop_left]

/-- The padded prefix renderings of an expression: all input texts whose
significant tokens spell the expression in Polish notation.  `w1` and `w2`
are arbitrary whitespace runs between an operator and its two operands,
except that `w2` may be empty only when the second operand starts with a
non-digit (otherwise two number tokens would merge).  Numeric leaves must
be non-negative: a `-` is always a `SUB` token, never a sign. -/
inductive PadR : Expression → List Char → Prop where
  | num (v : Int) (h : 0 ≤ v) : PadR (.Num v) (natRender v.toNat)
  | bin (k : TokenType) (c : Char)
      (operation : Expression → Expression → Expression)
      (a b : Expression) (sa sb w1 w2 : List Char)
      (hc : opCharOf k = some c)
      (hop : operations_map k = some operation)
      (ha : PadR a sa) (hb : PadR b sb)
      (hw1 : ∀ x ∈ w1, isWS x = true)
      (hw2 : ∀ x ∈ w2, isWS x = true)
      (hsep : w2 ≠ [] ∨ (∀ x, sb.head? = some x → x.isDigit = false)) :
      PadR (operation a b) (c :: (w1 ++ sa ++ (w2 ++ sb)))

/-- A rendering is never empty. -/
theorem PadR_ne_nil {e : Expression} {s : List Char} (h : PadR e s) :
    s ≠ [] := by
  cases h with
  | num v hv => exact natRender_ne_nil _
  | bin k c operation a b sa sb w1 w2 hc hop ha hb hw1 hw2 hsep => simp

/-- A rendering starts with a significant character. -/
theorem PadR_head_not_ws {e : Expression} {s : List Char} (h : PadR e s) :
    ∀ x, s.head? = some x → isWS x = false := by
  cases h with
  | num v hv =>
      intro x hx
      have hmem : x ∈ natRender v.toNat := List.mem_of_mem_head? hx
      exact isDigit_not_isWS x (natRender_digits _ x hmem)
  | bin k c operation a b sa sb w1 w2 hc hop ha hb hw1 hw2 hsep =>
      intro x hx
      injection hx with h0
      subst h0
      exact (opCharOf_props k c hc).2.2

/-- Parsing an input that is one bare digit run: the parser returns a leaf
holding its decimal value and stops right after the run. -/
theorem parse_digits (d0 : Char) (ds' : List Char)
    (hds : ∀ c ∈ d0 :: ds', c.isDigit = true) :
    compute_prefix ⟨d0 :: ds', 0⟩ =
      (.ok (.Num (digitsToNat (d0 :: ds'))), ⟨d0 :: ds', (d0 :: ds').length⟩) := by
  have hnvt := nvt_ws (d0 :: ds') [] 0 (d0 :: ds') rfl (by simp)
    (fun c hc => by
      injection hc with h0
      subst h0
      exact isDigit_not_isWS d0 (hds d0 (by simp)))
  simp only [List.length_nil, Nat.add_zero] at hnvt
  have hg := getToken_cons (d0 :: ds') 0 d0 ds' rfl
  rw [if_pos (hds d0 (by simp))] at hg
  have htw : ds'.takeWhile Char.isDigit = ds' := by
    have h2 := takeWhile_append_all Char.isDigit ds' []
      (fun c hc => hds c (by simp [hc])) (by simp)
    simpa using h2
  rw [htw] at hg
  rw [hg] at hnvt
  rw [computePrefix_def]
  simp only [compute_prefixF, hnvt]
  simp only [List.length_cons, Option.getD_some, if_pos]
  have harith : 0 + 1 + ds'.length = ds'.length + 1 := by omega
  rw [harith]

/-- The central parsing lemma: if the input from position `p` on consists
of a whitespace run, a padded rendering of `e`, and a tail that cannot
extend the rendering's last number token, then the parser (with enough
fuel) returns exactly `e` and leaves the lexer right after the rendering. -/
theorem parseF_padr {e : Expression} {body : List Char} (hp : PadR e body) :
    ∀ (fuel : Nat) (s : List Char) (p : Nat) (ws rest : List Char),
    s.drop p = ws ++ body ++ rest →
    (∀ c ∈ ws, isWS c = true) →
    (∀ c, rest.head? = some c → c.isDigit = false) →
    s.length - p < fuel →
    compute_prefixF fuel ⟨s, p⟩ =
      some (.ok e, ⟨s, p + (ws.length + body.length)⟩) := by
  induction hp with
  | num v hv =>
      intro fuel s p ws rest hdrop hws hrest hfuel
      obtain ⟨d0, ds', hds⟩ : ∃ d0 ds', natRender v.toNat = d0 :: ds' := by
        rcases hnr : natRender v.toNat with _ | ⟨a1, t1⟩
        · exact absurd hnr (natRender_ne_nil _)
        · exact ⟨a1, t1, rfl⟩
      rw [hds] at hdrop
      have hdigits : ∀ c ∈ d0 :: ds', c.isDigit = true := by
        rw [← hds]
        exact natRender_digits v.toNat
      have hdrop2 : s.drop p = ws ++ (d0 :: (ds' ++ rest)) := by
        simpa [List.append_assoc] using hdrop
      have hnvt := nvt_ws s ws p (d0 :: (ds' ++ rest)) hdrop2 hws
        (fun c hc => by
          injection hc with h0
          subst h0
          exact isDigit_not_isWS d0 (hdigits d0 (by simp)))
      have hdropA : s.drop (p + ws.length) = d0 :: (ds' ++ rest) :=
        drop_of_drop_append s p ws _ hdrop2
      have hg := getToken_cons s (p + ws.length) d0 (ds' ++ rest) hdropA
      rw [if_pos (hdigits d0 (by simp))] at hg
      have htw : (ds' ++ rest).takeWhile Char.isDigit = ds' :=
        takeWhile_append_all Char.isDigit ds' rest
          (fun c hc => hdigits c (by simp [hc])) hrest
      rw [htw] at hg
      rw [hg] at hnvt
      cases fuel with
      | zero => omega
      | succ f =>
          have hlen : (natRender v.toNat).length = ds'.length + 1 := by
            rw [hds]
            simp
          simp only [compute_prefixF, hnvt]
          rw [if_pos trivial]
          rw [← hds, digitsToNat_natRender, Int.toNat_of_nonneg hv]
          simp only [Option.some.injEq, Prod.mk.injEq, Lexer.mk.injEq]
          refine ⟨trivial, trivial, ?_⟩
          omega
  | bin k c operation a b sa sb w1 w2 hc hop ha hb hw1 hw2 hsep iha ihb =>
      intro fuel s p ws rest hdrop hws hrest hfuel
      obtain ⟨hcc, hcd, hcw⟩ := opCharOf_props k c hc
      have hdrop2 : s.drop p =
          ws ++ (c :: (w1 ++ (sa ++ (w2 ++ (sb ++ rest))))) := by
        simpa [List.append_assoc] using hdrop
      have hnvt0 := nvt_ws s ws p (c :: (w1 ++ (sa ++ (w2 ++ (sb ++ rest)))))
        hdrop2 hws
        (fun x hx => by
          injection hx with h0
          subst h0
          exact hcw)
      have hdropA : s.drop (p + ws.length) =
          c :: (w1 ++ (sa ++ (w2 ++ (sb ++ rest)))) :=
        drop_of_drop_append s p ws _ hdrop2
      have hg := getToken_cons s (p + ws.length) c _ hdropA
      rw [if_neg (by simp [hcd])] at hg
      simp only [hcc] at hg
      rw [hg] at hnvt0
      have hkind := operations_map_ne k operation hop
      have hplen : p + ws.length < s.length := by
        by_contra hcon
        rw [List.drop_eq_nil_iff.mpr (by omega)] at hdropA
        exact List.noConfusion hdropA
      cases fuel with
      | zero => omega
      | succ f =>
          have hdropB : s.drop (p + ws.length + 1) =
              w1 ++ (sa ++ (w2 ++ (sb ++ rest))) := by
            have h2 := drop_of_drop_append s (p + ws.length) [c]
              (w1 ++ (sa ++ (w2 ++ (sb ++ rest)))) (by simpa using hdropA)
            simpa using h2
          have hrestA : ∀ x, (w2 ++ (sb ++ rest)).head? = some x →
              x.isDigit = false := by
            cases w2 with
            | nil =>
                rcases hsep with hne | hsb
                · exact absurd rfl hne
                · intro x hx
                  simp only [List.nil_append] at hx
                  obtain ⟨y, sb', hy⟩ : ∃ y sb', sb = y :: sb' := by
                    rcases hsbs : sb with _ | ⟨y, sb'⟩
                    · exact absurd hsbs (PadR_ne_nil hb)
                    · exact ⟨y, sb', rfl⟩
                  rw [hy] at hx
                  simp only [List.cons_append] at hx
                  injection hx with h0
                  subst h0
                  exact hsb y (by rw [hy]; rfl)
            | cons x2 w2' =>
                intro x hx
                simp only [List.cons_append] at hx
                injection hx with h0
                subst h0
                exact isWS_not_digit x2 (hw2 x2 (by simp))
          have hfa : s.length - (p + ws.length + 1) < f := by omega
          have h1 := iha f s (p + ws.length + 1) w1 (w2 ++ (sb ++ rest))
            (by simpa [List.append_assoc] using hdropB) hw1 hrestA hfa
          have hdropC : s.drop ((p + ws.length + 1) + (w1.length + sa.length)) =
              w2 ++ (sb ++ rest) := by
            have h2 := drop_of_drop_append s (p + ws.length + 1) (w1 ++ sa)
              (w2 ++ (sb ++ rest)) (by simpa [List.append_assoc] using hdropB)
            simpa [List.length_append] using h2
          have hfb : s.length - ((p + ws.length + 1) + (w1.length + sa.length)) <
              f := by omega
          have h2 := ihb f s ((p + ws.length + 1) + (w1.length + sa.length))
            w2 rest (by simpa [List.append_assoc] using hdropC) hw2 hrest hfb
          have hknum : ¬((Token.mk [c] k).kind = .NUM) := by
            simpa using hkind.1
          simp only [compute_prefixF, hnvt0]
          rw [if_neg hknum]
          simp only [hop, h1, h2]
          simp only [Option.some.injEq, Prod.mk.injEq, Lexer.mk.injEq,
            List.length_cons, List.length_append]
          refine ⟨trivial, trivial, ?_⟩
          omega

/-- C1: when the next significant token is an operator in
`{ADD, SUB, MUL, DIV}`, the parser parses exactly two sub-expressions in
left-to-right order — the first recursive call consumes the left operand's
text, the second the right operand's text — and returns the binary node
given by `operations_map` (ADD to `Add`, SUB to `Sub`, MUL to `Mul`,
DIV to `Div`) with the first result as left child and the second as right
child. -/
theorem claim_operator_two_children :
    (operations_map .ADD = some .Add ∧ operations_map .SUB = some .Sub ∧
     operations_map .MUL = some .Mul ∧ operations_map .DIV = some .Div) ∧
    ∀ (k : TokenType) (c : Char)
      (operation : Expression → Expression → Expression)
      (a b : Expression) (sa sb : List Char),
      opCharOf k = some c → operations_map k = some operation →
      PadR a sa → PadR b sb →
      compute_prefix ⟨c :: ' ' :: (sa ++ ' ' :: sb), 0⟩ =
        (.ok (operation a b),
         ⟨c :: ' ' :: (sa ++ ' ' :: sb),
          (c :: ' ' :: (sa ++ ' ' :: sb)).length⟩) := by
  refine ⟨⟨rfl, rfl, rfl, rfl⟩, ?_⟩
  intro k c operation a b sa sb hc hop ha hb
  have hpad : PadR (operation a b) (c :: ([' '] ++ sa ++ ([' '] ++ sb))) :=
    PadR.bin k c operation a b sa sb [' '] [' '] hc hop ha hb
      (by intro x hx; simp at hx; subst hx; decide)
      (by intro x hx; simp at hx; subst hx; decide)
      (Or.inl (by simp))
  have hbody : (c :: ([' '] ++ sa ++ ([' '] ++ sb))) =
      c :: ' ' :: (sa ++ ' ' :: sb) := by
    simp
  rw [hbody] at hpad
  have h := parseF_padr hpad ((c :: ' ' :: (sa ++ ' ' :: sb)).length + 1)
    (c :: ' ' :: (sa ++ ' ' :: sb)) 0 [] [] (by simp) (by simp) (by simp)
    (by omega)
  rw [computePrefix_def, h]
  simp

/-- C1 witness: `"+ 3 4"` parses to `Add (Num 3) (Num 4)` with the whole
input consumed. -/
theorem claim_operator_two_children_witness :
    compute_prefix
        ⟨'+' :: ' ' :: (natRender (3:Int).toNat ++ ' ' ::
          natRender (4:Int).toNat), 0⟩ =
      (.ok (.Add (.Num 3) (.Num 4)),
       ⟨'+' :: ' ' :: (natRender (3:Int).toNat ++ ' ' ::
          natRender (4:Int).toNat),
        ('+' :: ' ' :: (natRender (3:Int).toNat ++ ' ' ::
          natRender (4:Int).toNat)).length⟩) :=
  claim_operator_two_children.2 .ADD '+' .Add (.Num 3) (.Num 4) _ _ rfl rfl
    (PadR.num 3 (by decide)) (PadR.num 4 (by decide))

/-- C2: parsing the decimal text of any natural number alone yields the
leaf `Num n`, whose evaluation equals `n`; a text with one more leading
zero still parses to the same literal decimal value (no octal reading). -/
theorem claim_number_literal :
    ∀ n : Nat,
      compute_prefix ⟨natRender n, 0⟩ =
        (.ok (.Num n), ⟨natRender n, (natRender n).length⟩) ∧
      Expression.eval (.Num n) = n ∧
      compute_prefix ⟨'0' :: natRender n, 0⟩ =
        (.ok (.Num n), ⟨'0' :: natRender n, ('0' :: natRender n).length⟩) := by
  intro n
  obtain ⟨d0, ds', hds⟩ : ∃ d0 ds', natRender n = d0 :: ds' := by
    rcases hnr : natRender n with _ | ⟨a1, t1⟩
    · exact absurd hnr (natRender_ne_nil _)
    · exact ⟨a1, t1, rfl⟩
  refine ⟨?_, rfl, ?_⟩
  · have h := parse_digits d0 ds' (by rw [← hds]; exact natRender_digits n)
    rw [← hds] at h
    rw [h, digitsToNat_natRender]
  · have h := parse_digits '0' (natRender n)
      (by
        intro x hx
        rcases List.mem_cons.mp hx with rfl | hx2
        · decide
        · exact natRender_digits n x hx2)
    rw [h, digitsToNat_cons_zero, digitsToNat_natRender]

/-- C3: the parser does not verify that the whole input was consumed — on
an input that begins with a complete rendering of `e` followed by any
trailing characters (whose first character does not extend the rendering's
final number token), it succeeds, returns `e`, and silently leaves the
lexer positioned right after the rendering. -/
theorem claim_trailing_ignored :
    ∀ (e : Expression) (body rest : List Char),
      PadR e body →
      (∀ c, rest.head? = some c → c.isDigit = false) →
      compute_prefix ⟨body ++ rest, 0⟩ =
        (.ok e, ⟨body ++ rest, body.length⟩) := by
  intro e body rest hp hrest
  have h := parseF_padr hp ((body ++ rest).length + 1) (body ++ rest) 0 []
    rest (by simp) (by simp) hrest (by omega)
  rw [computePrefix_def, h]
  simp

/-- C3 witness: `"1 9"` parses to `Num 1`, leaving the lexer at
position 1 with the trailing ` 9` unread. -/
theorem claim_trailing_ignored_witness :
    compute_prefix ⟨natRender (1:Int).toNat ++ [' ', '9'], 0⟩ =
      (.ok (.Num 1),
       ⟨natRender (1:Int).toNat ++ [' ', '9'],
        (natRender (1:Int).toNat).length⟩) :=
  claim_trailing_ignored (.Num 1) _ [' ', '9'] (PadR.num 1 (by decide))
    (fun c hc => by
      injection hc with h0
      subst h0
      decide)

/-- C4: whenever the significant token fetched by the parser is neither a
number nor an operator — including `EOF`, `LPR` and `RPR` — the parse
fails with `UnexpectedToken` carrying that token's kind; in particular the
input `"+"` alone fails with `UnexpectedToken EOF`. -/
theorem claim_unexpected_token :
    (∀ (lx lx' : Lexer) (tok : Token),
      lx.next_valid_token = (.ok tok, lx') →
      tok.kind ≠ .NUM → tok.kind ∉ Token.operators →
      compute_prefix lx = (.error (.UnexpectedToken tok.kind), lx')) ∧
    compute_prefix ⟨['+'], 0⟩ =
      (.error (.UnexpectedToken .EOF), ⟨['+'], 1⟩) := by
  constructor
  · intro lx lx' tok hnvt hnum hop
    have hopnone : operations_map tok.kind = none := by
      rcases hsome : operations_map tok.kind with _ | f
      · rfl
      · exact absurd ((operations_map_isSome_iff tok.kind).mp
          (by rw [hsome]; rfl)) hop
    rw [computePrefix_def]
    simp only [compute_prefixF, hnvt, if_neg hnum, hopnone, Option.getD_some]
  · have hg1 := getToken_cons ['+'] 0 '+' [] rfl
    rw [if_neg (by decide)] at hg1
    simp only [show non_numeric_tokens '+' = some .ADD from rfl] at hg1
    have hnvt1 := nvt_keep _ _ _ hg1 (by decide)
    have hg2 := getToken_eof ⟨['+'], 1⟩ (by decide)
    have hnvt2 := nvt_keep _ _ _ hg2 (by decide)
    rw [computePrefix_def]
    have hlen : (['+'] : List Char).length = 0 + 1 := by decide
    rw [hlen]
    simp only [compute_prefixF, hnvt1, hnvt2, if_neg (by decide : ¬((Token.mk ['+'] .ADD).kind = .NUM)),
      if_neg (by decide : ¬((Token.mk ([] : List Char) .EOF).kind = .NUM))]
    simp only [operations_map, Option.getD_some]

/-- C4 witness: `"("` fails with `UnexpectedToken LPR`. -/
theorem claim_unexpected_token_witness :
    compute_prefix ⟨['('], 0⟩ =
      (.error (.UnexpectedToken .LPR), ⟨['('], 1⟩) := by
  have hg := getToken_cons ['('] 0 '(' [] rfl
  rw [if_neg (by decide)] at hg
  simp only [show non_numeric_tokens '(' = some .LPR from rfl] at hg
  have hnvt := nvt_keep _ _ _ hg (by decide)
  exact claim_unexpected_token.1 ⟨['('], 0⟩ ⟨['('], 1⟩ ⟨['('], .LPR⟩ hnvt
    (by decide) (by decide)

/-- C5: on a digit, one scan returns a `NUM` token whose text is the
maximal run of consecutive digits starting there and advances the position
past that run; a `-` is always lexed as its own `SUB` token, never folded
into a number. -/
theorem claim_maximal_munch :
    ∀ (s : List Char) (p : Nat) (h : p < s.length),
      ((s.get ⟨p, h⟩).isDigit = true →
        Lexer.getToken ⟨s, p⟩ =
          (.ok ⟨s.get ⟨p, h⟩ :: (s.drop (p + 1)).takeWhile Char.isDigit,
            .NUM⟩,
           ⟨s, p + 1 + ((s.drop (p + 1)).takeWhile Char.isDigit).length⟩)) ∧
      (s.get ⟨p, h⟩ = '-' →
        Lexer.getToken ⟨s, p⟩ = (.ok ⟨['-'], .SUB⟩, ⟨s, p + 1⟩)) := by
  intro s p h
  have hdrop : s.drop p = s.get ⟨p, h⟩ :: s.drop (p + 1) := by
    rw [List.get_eq_getElem, List.getElem_cons_drop]
  have hg := getToken_cons s p (s.get ⟨p, h⟩) (s.drop (p + 1)) hdrop
  constructor
  · intro hd
    rw [if_pos hd] at hg
    exact hg
  · intro hminus
    rw [hminus] at hg
    rw [if_neg (by decide)] at hg
    simp only [show non_numeric_tokens '-' = some .SUB from rfl] at hg
    exact hg

/-- C5 witness: scanning `"12+"` yields the token `12` and position 2;
scanning `"-1"` yields a lone `SUB` token and position 1. -/
theorem claim_maximal_munch_witness :
    Lexer.getToken ⟨['1', '2', '+'], 0⟩ =
      (.ok ⟨['1', '2'], .NUM⟩, ⟨['1', '2', '+'], 2⟩) ∧
    Lexer.getToken ⟨['-', '1'], 0⟩ =
      (.ok ⟨['-'], .SUB⟩, ⟨['-', '1'], 1⟩) := by
  constructor
  · have h := (claim_maximal_munch ['1', '2', '+'] 0 (by decide)).1 (by decide)
    rw [h]
    simp only [List.get_eq_getElem, List.getElem_cons_zero]
    rw [show List.takeWhile Char.isDigit (List.drop (0 + 1) ['1', '2', '+']) =
      ['2'] from by decide]
    rfl
  · have h := (claim_maximal_munch ['-', '1'] 0 (by decide)).2 (by decide)
    rw [h]

/-- C6: the lexer state keeps `position ≤ length` (with `position : Nat`,
so `0 ≤ position` holds by construction), each scan is monotone in the
position and preserves the input; once the position has reached the end,
every further scan returns the `EOF` token with empty text and leaves the
state — in particular the position — unchanged, without error. -/
theorem claim_position_invariant :
    ∀ lx : Lexer, lx.position ≤ lx.input_string.length →
      (lx.position ≤ (lx.getToken).2.position ∧
       (lx.getToken).2.position ≤ lx.input_string.length ∧
       (lx.getToken).2.input_string = lx.input_string) ∧
      (lx.input_string.length ≤ lx.position →
        lx.getToken = (.ok ⟨[], .EOF⟩, lx)) := by
  intro lx hle
  exact ⟨⟨getToken_pos_le lx, getToken_pos_le_length lx hle,
    getToken_input lx⟩, fun h => getToken_eof lx h⟩

/-- C6 witness at the one-character input `"1"`, position 0. -/
theorem claim_position_invariant_witness :
    ((⟨['1'], 0⟩ : Lexer).position ≤
        ((⟨['1'], 0⟩ : Lexer).getToken).2.position ∧
      ((⟨['1'], 0⟩ : Lexer).getToken).2.position ≤
        (⟨['1'], 0⟩ : Lexer).input_string.length ∧
      ((⟨['1'], 0⟩ : Lexer).getToken).2.input_string =
        (⟨['1'], 0⟩ : Lexer).input_string) ∧
    ((⟨['1'], 0⟩ : Lexer).input_string.length ≤ (⟨['1'], 0⟩ : Lexer).position →
      (⟨['1'], 0⟩ : Lexer).getToken = (.ok ⟨[], .EOF⟩, ⟨['1'], 0⟩)) :=
  claim_position_invariant ⟨['1'], 0⟩ (by decide)

/-- C7: a character that is not a digit and not one of the eight
recognized characters makes the scan fail with `UnexpectedCharacter`
carrying that character, and the skipping scan (`next_valid_token`) fails
the same way — lexing cannot continue past it. -/
theorem claim_unexpected_character :
    ∀ (s : List Char) (p : Nat) (h : p < s.length),
      (s.get ⟨p, h⟩).isDigit = false →
      non_numeric_tokens (s.get ⟨p, h⟩) = none →
      Lexer.getToken ⟨s, p⟩ =
        (.error (.UnexpectedCharacter (s.get ⟨p, h⟩)), ⟨s, p + 1⟩) ∧
      Lexer.next_valid_token ⟨s, p⟩ =
        (.error (.UnexpectedCharacter (s.get ⟨p, h⟩)), ⟨s, p + 1⟩) := by
  intro s p h hd hn
  have hdrop : s.drop p = s.get ⟨p, h⟩ :: s.drop (p + 1) := by
    rw [List.get_eq_getElem, List.getElem_cons_drop]
  have hg := getToken_cons s p (s.get ⟨p, h⟩) (s.drop (p + 1)) hdrop
  rw [if_neg (by rw [Bool.not_eq_true]; exact hd)] at hg
  simp only [hn] at hg
  exact ⟨hg, nvt_error _ _ _ hg⟩

/-- C7 witness: scanning `"@"` fails with `UnexpectedCharacter '@'`. -/
theorem claim_unexpected_character_witness :
    Lexer.getToken ⟨['@'], 0⟩ =
      (.error (.UnexpectedCharacter '@'), ⟨['@'], 1⟩) ∧
    Lexer.next_valid_token ⟨['@'], 0⟩ =
      (.error (.UnexpectedCharacter '@'), ⟨['@'], 1⟩) := by
  have h := claim_unexpected_character ['@'] 0 (by decide) (by decide)
    (by decide)
  simpa using h

/-- C8: whitespace insensitivity.  Any two whitespace paddings of the same
expression parse to the same tree, because `next_valid_token` (the spec's
`next_significant`) discards exactly a leading run of `WSP`/`NLN` tokens
and returns the first token of any other kind (including `EOF`), behaving
as one `getToken` call past the whitespace run. -/
theorem claim_whitespace_insensitive :
    (∀ (e : Expression) (s1 s2 : List Char),
      PadR e s1 → PadR e s2 →
      ( compute_prefix ⟨s1, 0⟩).1 = .ok e ∧
      ( compute_prefix ⟨s2, 0⟩).1 = .ok e) ∧
    (∀ (s : List Char) (p : Nat) (ws rest : List Char),
      s.drop p = ws ++ rest →
      (∀ c ∈ ws, isWS c = true) →
      (∀ c, rest.head? = some c → isWS c = false) →
      Lexer.next_valid_token ⟨s, p⟩ = Lexer.getToken ⟨s, p + ws.length⟩) := by
  have hone : ∀ (e : Expression) (s1 : List Char), PadR e s1 →
      ( compute_prefix ⟨s1, 0⟩).1 = .ok e := by
    intro e s1 hp
    have h := parseF_padr hp (s1.length + 1) s1 0 [] [] (by simp) (by simp)
      (by simp) (by omega)
    rw [computePrefix_def, h]
    rfl
  exact ⟨fun e s1 s2 h1 h2 => ⟨hone e s1 h1, hone e s2 h2⟩,
    fun s p ws rest hd hw hr => nvt_ws s ws p rest hd hw hr⟩

/-- C8 witness: `"+ 1 2"` and `"+1  2"` (same tokens, different
whitespace) both parse to `Add (Num 1) (Num 2)`. -/
theorem claim_whitespace_insensitive_witness :
    ( compute_prefix
        ⟨'+' :: ([' '] ++ natRender (1:Int).toNat ++
          ([' '] ++ natRender (2:Int).toNat)), 0⟩).1 =
      .ok (.Add (.Num 1) (.Num 2)) ∧
    ( compute_prefix
        ⟨'+' :: ([] ++ natRender (1:Int).toNat ++
          ([' ', ' '] ++ natRender (2:Int).toNat)), 0⟩).1 =
      .ok (.Add (.Num 1) (.Num 2)) :=
  claim_whitespace_insensitive.1 (.Add (.Num 1) (.Num 2)) _ _
    (PadR.bin .ADD '+' .Add (.Num 1) (.Num 2) _ _ [' '] [' '] rfl rfl
      (PadR.num 1 (by decide)) (PadR.num 2 (by decide))
      (by decide) (by decide) (Or.inl (by decide)))
    (PadR.bin .ADD '+' .Add (.Num 1) (.Num 2) _ _ [] [' ', ' '] rfl rfl
      (PadR.num 1 (by decide)) (PadR.num 2 (by decide))
      (by decide) (by decide) (Or.inl (by decide)))

/-- C9: when a scan fails on an unrecognized character the lexer's
position has already moved one past the offending character — the error is
not atomic with respect to the lexer state. -/
theorem claim_error_not_atomic :
    ∀ (lx : Lexer) (e : Err),
      (lx.getToken).1 = .error e →
      (lx.getToken).2.position = lx.position + 1 ∧
      (lx.getToken).2.input_string = lx.input_string := by
  intro lx e h
  obtain ⟨s, p⟩ := lx
  rcases hd : s.drop p with _ | ⟨c, t⟩
  · rw [getToken_eof _ (List.drop_eq_nil_iff.mp hd)] at h
    cases h
  · have hg := getToken_cons s p c t hd
    by_cases hdig : c.isDigit = true
    · rw [if_pos hdig] at hg
      rw [hg] at h
      cases h
    · rw [if_neg (by rw [Bool.not_eq_true]; exact (Bool.not_eq_true c.isDigit).mp hdig ▸ rfl)] at hg
      rcases hnn : non_numeric_tokens c with _ | k
      · simp only [hnn] at hg
        rw [hg]
        exact ⟨rfl, rfl⟩
      · simp only [hnn] at hg
        rw [hg] at h
        cases h

/-- C9 witness: scanning `"@"` raises, yet the returned state has
position 1, one past the offending character. -/
theorem claim_error_not_atomic_witness :
    (Lexer.getToken ⟨['@'], 0⟩).2.position = (⟨['@'], 0⟩ : Lexer).position + 1 ∧
    (Lexer.getToken ⟨['@'], 0⟩).2.input_string =
      (⟨['@'], 0⟩ : Lexer).input_string :=
  claim_error_not_atomic ⟨['@'], 0⟩ (.UnexpectedCharacter '@') (by rfl)

/-- C10: the parser terminates on every finite input: with any fuel
exceeding the number of characters left, the fuelled parser completes
(returns an expression or an error), because every significant non-`EOF`
token strictly advances the bounded position and `EOF` takes the error
branch instead of recursing; `compute_prefix` is exactly the completed
run. -/
theorem claim_terminates :
    ∀ lx : Lexer,
      (∀ fuel : Nat, lx.input_string.length - lx.position < fuel →
        ∃ r, compute_prefixF fuel lx = some r) ∧
      compute_prefixF (lx.input_string.length + 1) lx =
        some ( compute_prefix lx) := by
  intro lx
  constructor
  · intro fuel h
    exact compute_prefixF_isSome fuel lx h
  · obtain ⟨r, hr⟩ := compute_prefixF_isSome (lx.input_string.length + 1) lx
      (by omega)
    rw [computePrefix_def, hr]
    rfl

/-- C10 witness at the input `"1"`. -/
theorem claim_terminates_witness :
    (∃ r, compute_prefixF 2 ⟨['1'], 0⟩ = some r) ∧
    compute_prefixF ((['1'] : List Char).length + 1) ⟨['1'], 0⟩ =
      some ( compute_prefix ⟨['1'], 0⟩) :=
  ⟨(claim_terminates ⟨['1'], 0⟩).1 2 (by decide),
   (claim_terminates ⟨['1'], 0⟩).2⟩
